import Mathlib

/-!
Verification of the Firestore value codec and partial-write planner of the
`cloudflare-firebase` repository (src/firestore/serializer.ts,
src/firestore/field-value.ts, src/firestore/write-batch.ts, and the sibling
revision of the collector/batch shipped alongside them).

The TypeScript sources are shallowly embedded: native JavaScript values are
the inductive `NValue`, protocol wire values are `WireValue`, fallible
JavaScript evaluation is `Except JsErr`, and the mutable `UpdateCollector`
is threaded explicitly through the recursive encoder.  Platform built-ins
used by the code (`TextDecoder`, `btoa`, `atob`, `Array.prototype.sort`,
`Date` rendering, `parseInt`/`parseFloat`) are modelled by explicit
functions, each documented at its definition.
-/

/-- Dot-join of the collector path stack: `this.paths.join('.')`. -/
def joinDot (paths : List String) : String :=
  String.intercalate "." paths

/-- Base64 alphabet used by the platform `btoa`/`atob` pair. -/
def b64Chars : String :=
  "ABCDEFGHIJKLMNOPQRSTUVWXYZabcdefghijklmnopqrstuvwxyz0123456789+/"

/-- Character of the base64 alphabet at index `i` (0..63). -/
def b64Char (i : Nat) : Char :=
  b64Chars.toList.getD i 'A'

/-- Index of a character in the base64 alphabet; padding and foreign
characters map to 0 (they are filtered by the caller). -/
def b64Index (c : Char) : Nat :=
  match b64Chars.toList.indexOf? c with
  | some i => i
  | none => 0

/-- Base64 rendering of a byte sequence, grouping three bytes into four
alphabet characters with `=` padding.  This is the shared core of the
platform `btoa` and of the raw-byte base64 the spec asks for. -/
def base64Core : List Nat → String
  | [] => ""
  | [b1] =>
    String.mk [b64Char (b1 / 4), b64Char (b1 % 4 * 16), '=', '=']
  | [b1, b2] =>
    String.mk [b64Char (b1 / 4), b64Char (b1 % 4 * 16 + b2 / 16),
               b64Char (b2 % 16 * 4), '=']
  | b1 :: b2 :: b3 :: rest =>
    String.mk [b64Char (b1 / 4), b64Char (b1 % 4 * 16 + b2 / 16),
               b64Char (b2 % 16 * 4 + b3 / 64), b64Char (b3 % 64)] ++
    base64Core rest

/-- Platform `btoa(text)`: base64 of a string of UTF-16 code units, raising
`InvalidCharacterError` (here `none`) when a unit exceeds 0xFF. -/
def btoa (codeUnits : List Nat) : Option String :=
  if codeUnits.any (fun u => 255 < u) then none
  else some (base64Core codeUnits)

/-- Platform `atob(text)`: decodes four base64 characters into three bytes,
honouring `=` padding.  Only well-formed base64 (as produced by `btoa`) is
relevant to the claims below. -/
def atobChars : List Char → List Nat
  | c1 :: c2 :: c3 :: c4 :: rest =>
    let n1 := b64Index c1
    let n2 := b64Index c2
    if c3 = '=' then [n1 * 4 + n2 / 16]
    else
      let n3 := b64Index c3
      if c4 = '=' then [n1 * 4 + n2 / 16, n2 % 16 * 16 + n3 / 4]
      else
        (n1 * 4 + n2 / 16) :: (n2 % 16 * 16 + n3 / 4) ::
          (n3 % 4 * 64 + b64Index c4) :: atobChars rest
  | _ => []

/-- Platform `atob` on a string. -/
def atob (s : String) : List Nat :=
  atobChars s.toList

/-- Is `b` a UTF-8 continuation byte (0x80..0xBF)? -/
def isCont (b : Nat) : Bool :=
  0x80 ≤ b && b ≤ 0xBF

/-- Platform `new TextDecoder('utf8').decode(buffer)`: WHATWG UTF-8 decoding
of a byte sequence into code points, emitting U+FFFD for invalid input.
The serializer pipes raw buffer bytes through this before `btoa`. -/
def utf8Decode : List Nat → List Nat
  | [] => []
  | b :: rest =>
    if b ≤ 0x7F then b :: utf8Decode rest
    else if 0xC2 ≤ b && b ≤ 0xDF then
      match rest with
      | c :: rest2 =>
        if isCont c then ((b - 0xC0) * 64 + (c - 0x80)) :: utf8Decode rest2
        else 0xFFFD :: utf8Decode (c :: rest2)
      | [] => [0xFFFD]
    else if 0xE0 ≤ b && b ≤ 0xEF then
      match rest with
      | c :: rest2 =>
        let lo := if b = 0xE0 then 0xA0 else 0x80
        let hi := if b = 0xED then 0x9F else 0xBF
        if lo ≤ c && c ≤ hi then
          match rest2 with
          | d :: rest3 =>
            if isCont d then
              ((b - 0xE0) * 4096 + (c - 0x80) * 64 + (d - 0x80)) :: utf8Decode rest3
            else 0xFFFD :: utf8Decode (d :: rest3)
          | [] => [0xFFFD]
        else 0xFFFD :: utf8Decode (c :: rest2)
      | [] => [0xFFFD]
    else if 0xF0 ≤ b && b ≤ 0xF4 then
      match rest with
      | c :: rest2 =>
        let lo := if b = 0xF0 then 0x90 else 0x80
        let hi := if b = 0xF4 then 0x8F else 0xBF
        if lo ≤ c && c ≤ hi then
          match rest2 with
          | d :: rest3 =>
            if isCont d then
              match rest3 with
              | e :: rest4 =>
                if isCont e then
                  ((b - 0xF0) * 262144 + (c - 0x80) * 4096 + (d - 0x80) * 64 +
                    (e - 0x80)) :: utf8Decode rest4
                else 0xFFFD :: utf8Decode (e :: rest4)
              | [] => [0xFFFD]
            else 0xFFFD :: utf8Decode (d :: rest3)
          | [] => [0xFFFD]
        else 0xFFFD :: utf8Decode (c :: rest2)
      | [] => [0xFFFD]
    else 0xFFFD :: utf8Decode rest
  termination_by l => l.length
  decreasing_by all_goals (simp only [List.length_cons]; omega)

/-- Native JavaScript values as the firestore codec can receive them
(`DocumentData` fields).  Numbers follow the dispatch of `encodeValue`:
`vint` is a safe integer other than negative zero, `vnegZero` is `-0`, and
`vdouble` carries the `String(value)` rendering of any other number.
`vsentinel t v` is a `FieldValue` instance (own enumerable fields
`transform` and `value`), `vdate` is a `Date` by epoch milliseconds,
`vref` is a `Reference` (modelled from the spec, which describes it as an
object exposing its relative document path and an absolute `qualifiedPath`),
`vbuf` is an `ArrayBuffer` holding the listed bytes, `vmap` a plain object
with its own enumerable entries in insertion order (keys unique, as in any
JavaScript object), `vundef` is `undefined`, and `vfun`/`vsym` stand for a
function and a symbol. -/
inductive NValue where
  | vnull
  | vundef
  | vbool (b : Bool)
  | vint (n : Int)
  | vnegZero
  | vdouble (s : String)
  | vsentinel (t : String) (v : NValue)
  | vdate (ms : Int)
  | vref (path : String)
  | vstr (s : String)
  | vbuf (bytes : List Nat)
  | vmap (fields : List (String × NValue))
  | varr (elems : List NValue)
  | vfun
  | vsym
deriving Repr

/-- Wire `api.Value`: the closed tagged union of the protocol, exactly one
variant populated.  `doubleValue` carries the string the code actually
builds with string concatenation.  `geoPointValue` and `referenceValue`
carry the native value the serializer put there verbatim (the source
returns the probed object, respectively `value.qualifiedPath`, unchanged). -/
inductive WireValue where
  | nullValue
  | booleanValue (b : Bool)
  | integerValue (s : String)
  | doubleValue (s : String)
  | timestampValue (s : String)
  | stringValue (s : String)
  | bytesValue (s : String)
  | referenceValue (v : NValue)
  | geoPointValue (v : NValue)
  | arrayValue (values : List WireValue)
  | mapValue (fields : List (String × WireValue))
deriving Repr

/-- JavaScript exceptions the embedded code can raise. -/
inductive JsErr where
  | unsupported (typeName : String)
  | typeError (msg : String)
  | invalidCharacter (msg : String)
deriving Repr, DecidableEq

/-- JavaScript truthiness of a native value (`if (value.qualifiedPath)`
style tests).  The only falsy values are `false`, `0` and `-0`, `NaN`
(whose rendering is the string NaN), the empty string, `null` and
`undefined`. -/
def truthy : NValue → Bool
  | .vnull => false
  | .vundef => false
  | .vbool b => b
  | .vint n => n != 0
  | .vnegZero => false
  | .vdouble s => s != "NaN"
  | .vstr s => s != ""
  | _ => true

/-- Property lookup on an object literal: first binding of the key, as in a
JavaScript object (whose keys are unique). -/
def jsGet {α : Type} (fields : List (String × α)) (key : String) : Option α :=
  match fields with
  | [] => none
  | (k, v) :: rest => if k = key then some v else jsGet rest key

/-- Does the object have the key (`'latitude' in value`)? -/
def jsHas {α : Type} (fields : List (String × α)) (key : String) : Bool :=
  (jsGet fields key).isSome

/-- Is the wire value an array or a map?  Used by `encode` for the
`shouldAddMask` decision: `!(fields[key].arrayValue || fields[key].mapValue)`. -/
def isArrayOrMap : WireValue → Bool
  | .arrayValue _ => true
  | .mapValue _ => true
  | _ => false

/-- The two revisions of the `UpdateCollector` bookkeeping present in the
lineage: `skip` is src/firestore/field-value.ts, whose `leaveField` skips
the mask append when the most recent transform has the same joined path
and which defines no `removeField` method; `retract` is the sibling
revision, whose `leaveField` appends unconditionally and which pops the
last mask entry in `removeField`. -/
inductive Variant where
  | skip
  | retract
deriving Repr, DecidableEq

/-- Payload of an `api.FieldTransform` entry: `FieldValue.encode` stores
the raw `this.value` on its setToServerValue comparison branch and an
encoded wire value otherwise. -/
inductive TransformPayload where
  | native (v : NValue)
  | wire (w : WireValue)
deriving Repr

/-- Wire `api.FieldTransform`: `{ fieldPath, [this.transform]: value }`. -/
structure FieldTransform where
  fieldPath : String
  transform : String
  value : TransformPayload
deriving Repr

/-- field-value.ts `UpdateCollector`: the mutable path stack, update mask
(`mask.fieldPaths`) and transform list, threaded explicitly. -/
structure UpdateCollector where
  paths : List String
  mask : List String
  transforms : List FieldTransform
deriving Repr

/-- A collector as freshly constructed by `new UpdateCollector()`. -/
def freshCollector : UpdateCollector := ⟨[], [], []⟩

/-- `UpdateCollector.enterField`: push the field name. -/
def ucEnterField (field : String) (c : UpdateCollector) : UpdateCollector :=
  { c with paths := c.paths ++ [field] }

/-- `UpdateCollector.leaveField(addMask)` in both revisions: possibly append
the joined current path to the mask, then pop the path stack.  The `skip`
revision additionally requires the most recently appended transform not to
sit at the same joined path. -/
def ucLeaveField (variant : Variant) (addMask : Bool) (c : UpdateCollector) :
    UpdateCollector :=
  let doAdd :=
    match variant with
    | .skip =>
      addMask && (match c.transforms.getLast? with
                  | some ft => ft.fieldPath != joinDot c.paths
                  | none => true)
    | .retract => addMask
  { paths := c.paths.dropLast
    mask := if doAdd then c.mask ++ [joinDot c.paths] else c.mask
    transforms := c.transforms }

/-- `UpdateCollector.removeField`: the `retract` revision pops the last
mask entry (`this.mask.fieldPaths.pop()`).  The `skip` revision defines no
such method, so the serializer call `collector?.removeField()` is a
JavaScript TypeError whenever that collector is present. -/
def ucRemoveField (variant : Variant) (c : UpdateCollector) :
    Except JsErr UpdateCollector :=
  match variant with
  | .skip => .error (.typeError "collector.removeField is not a function")
  | .retract => .ok { c with mask := c.mask.dropLast }

mutual

/-- Size measures justifying the recursion of the encoder: the serializer
re-enters the generic object walk on a sentinel with the two-entry object
over the FieldValue own fields, so a plain subterm measure does not fit. -/
def szV : NValue → Nat
  | .vsentinel _ v => szV v + 6
  | .vmap fields => szFs fields + 2
  | .varr elems => szEs elems + 1
  | _ => 1

/-- Size of an object entry list, for the termination measure. -/
def szFs : List (String × NValue) → Nat
  | [] => 0
  | (_, v) :: rest => szV v + szFs rest + 1

/-- Size of an array element list, for the termination measure. -/
def szEs : List NValue → Nat
  | [] => 0
  | v :: rest => szV v + szEs rest + 1

end

/-- Platform `Date.prototype.toISOString` for a Date of the given epoch
milliseconds.  None of the claims below examines the rendered text — only
that `encodeValue` wraps the rendering in a `timestampValue` — so the
calendar arithmetic of the real rendering is abstracted to an injective
rendering of the epoch milliseconds. -/
def jsToISOString (ms : Int) : String := toString ms ++ "Z"

/-- Platform `new Date(text).getTime()` for a string produced by the
rendering above, completing the timestamp model. -/
def jsParseDateMs (s : String) : Int := ((s.dropRight 1).toInt?).getD 0

/-- Modelled from the spec: the firestore client's base resource path
(`Firestore.basePath`), for a fixed project and database id; references
are the only place it enters the codec. -/
def basePath : String := "projects/test-project/databases/(default)/documents"

/-- Modelled from the spec: a `Reference` exposes the absolute qualified
path built from the client base path and its relative document path. -/
def refQualifiedPath (path : String) : String := basePath ++ "/" ++ path

/-- Is the native value `undefined` (the `value !== undefined` test)? -/
def isUndef : NValue → Bool
  | .vundef => true
  | _ => false

/-- The `value.buffer instanceof ArrayBuffer` probe: the bytes of the
`buffer` property when it is an ArrayBuffer. -/
def bufBytes : NValue → Option (List Nat)
  | .vbuf bytes => some bytes
  | _ => none

mutual

/-- serializer.ts `encode(map, collector?)`: walks `Object.entries(map)`
in insertion order; around each value the collector enters and leaves the
field; a value that is `undefined` is not encoded and emits no field;
`shouldAddMask` is `!fields[key] || !(fields[key].arrayValue ||
fields[key].mapValue)`. -/
def encode (variant : Variant) (map : List (String × NValue))
    (col : Option UpdateCollector) :
    Except JsErr (List (String × WireValue) × Option UpdateCollector) :=
  match map with
  | [] => .ok ([], col)
  | (key, value) :: rest => do
    let col := col.map (ucEnterField key)
    let (field?, col) ←
      if isUndef value then .ok ((none : Option WireValue), col)
      else do
        let (w, col) ← encodeValue variant value col
        .ok (some w, col)
    let shouldAddMask :=
      match field? with
      | none => true
      | some w => !isArrayOrMap w
    let col := col.map (ucLeaveField variant shouldAddMask)
    let (fieldsRest, col) ← encode variant rest col
    .ok ((match field? with | some w => [(key, w)] | none => []) ++ fieldsRest, col)
  termination_by szFs map
  decreasing_by all_goals (simp [szV, szFs, szEs] <;> omega)

/-- serializer.ts `encodeValue(value, collector?)`: the dispatch chain.
The `FieldValue` branch calls `collector?.transform(value)` and
`collector?.removeField()` but has no return statement, so control falls
through the remaining probes (`instanceof Date`, `value.qualifiedPath`,
string, buffers, geo point, array) down to `typeof value === 'object'`,
re-encoding the FieldValue instance as a map over its own enumerable
fields `transform` (a string) and `value`. -/
def encodeValue (variant : Variant) (value : NValue)
    (col : Option UpdateCollector) :
    Except JsErr (WireValue × Option UpdateCollector) :=
  match value with
  | .vnull => .ok (.nullValue, col)
  | .vbool b => .ok (.booleanValue b, col)
  | .vint n => .ok (.integerValue (toString n), col)
  | .vnegZero => .ok (.doubleValue "0", col)
  | .vdouble s => .ok (.doubleValue s, col)
  | .vsentinel t v => do
    let col ← match col with
      | none => .ok (none : Option UpdateCollector)
      | some c => do
        let c ← ucTransform variant t v c
        let c ← ucRemoveField variant c
        .ok (some c)
    let (ws, col) ← encode variant [("transform", .vstr t), ("value", v)] col
    .ok (.mapValue ws, col)
  | .vdate ms => .ok (.timestampValue (jsToISOString ms), col)
  | .vref path => .ok (.referenceValue (.vstr (refQualifiedPath path)), col)
  | .vstr s => .ok (.stringValue s, col)
  | .vbuf bytes =>
    match btoa (utf8Decode bytes) with
    | some s => .ok (.bytesValue s, col)
    | none => .error (.invalidCharacter "btoa: invalid character")
  | .vmap fields =>
    match jsGet fields "qualifiedPath" with
    | some q =>
      if truthy q then .ok (.referenceValue q, col)
      else encodeObject variant fields col
    | none => encodeObject variant fields col
  | .varr elems => do
    let (ws, col) ← encodeList variant elems col
    .ok (.arrayValue ws, col)
  | .vundef =>
    .error (.typeError "Cannot read properties of undefined (reading qualifiedPath)")
  | .vfun => .error (.unsupported "function")
  | .vsym => .error (.unsupported "symbol")
  termination_by szV value
  decreasing_by all_goals (simp [szV, szFs, szEs] <;> omega)

/-- Continuation of `encodeValue` for plain objects that were not claimed
by the qualified-path probe: the `value.buffer instanceof ArrayBuffer`
probe, the latitude/longitude probe, and finally the recursive map case. -/
def encodeObject (variant : Variant) (fields : List (String × NValue))
    (col : Option UpdateCollector) :
    Except JsErr (WireValue × Option UpdateCollector) :=
  match (jsGet fields "buffer").bind bufBytes with
  | some bytes =>
    (match btoa (utf8Decode bytes) with
     | some s => .ok (.bytesValue s, col)
     | none => .error (.invalidCharacter "btoa: invalid character"))
  | none =>
    if jsHas fields "latitude" && jsHas fields "longitude" && fields.length = 2 then
      .ok (.geoPointValue (.vmap fields), col)
    else do
      let (ws, col) ← encode variant fields col
      .ok (.mapValue ws, col)
  termination_by szFs fields + 1
  decreasing_by all_goals (simp [szV, szFs, szEs] <;> omega)

/-- Element-wise encoding of an array (`value.map(v => encodeValue(v,
collector))`), threading the shared collector left to right. -/
def encodeList (variant : Variant) (elems : List NValue)
    (col : Option UpdateCollector) :
    Except JsErr (List WireValue × Option UpdateCollector) :=
  match elems with
  | [] => .ok ([], col)
  | v :: rest => do
    let (w, col) ← encodeValue variant v col
    let (ws, col) ← encodeList variant rest col
    .ok (w :: ws, col)
  termination_by szEs elems
  decreasing_by all_goals (simp [szV, szFs, szEs] <;> omega)

/-- field-value.ts `FieldValue.encode(fieldPath)`: builds the transform
entry `{ fieldPath, [this.transform]: value }`.  The source compares the
FIELD PATH (not `this.transform`) against the string setToServerValue, so
with an ordinary field path the payload is always `encodeValue(this.value)`
(run without a collector). -/
def fieldValueEncode (variant : Variant) (t : String) (v : NValue)
    (fieldPath : String) : Except JsErr FieldTransform :=
  if fieldPath = "setToServerValue" then
    .ok { fieldPath := fieldPath, transform := t, value := .native v }
  else do
    let (w, _) ← encodeValue variant v none
    .ok { fieldPath := fieldPath, transform := t, value := .wire w }
  termination_by szV v + 1
  decreasing_by all_goals (simp [szV, szFs, szEs] <;> omega)

/-- field-value.ts `UpdateCollector.transform(transform)`: appends
`transform.encode(this.paths.join('.'))` to the transform list. -/
def ucTransform (variant : Variant) (t : String) (v : NValue)
    (c : UpdateCollector) : Except JsErr UpdateCollector := do
  let ft ← fieldValueEncode variant t v (joinDot c.paths)
  .ok { c with transforms := c.transforms ++ [ft] }
  termination_by szV v + 2
  decreasing_by all_goals (simp [szV, szFs, szEs] <;> omega)

end

/-- Platform `parseInt(text, 10)`, modelled for the decimal renderings the
encoder produces (an optional minus sign followed by digits): such strings
parse back to the integer; anything else is NaN.  JavaScript would lose
precision outside the safe-integer range and accept junk suffixes, which
no claim below depends on. -/
def jsParseInt (s : String) : NValue :=
  match s.toInt? with
  | some n => .vint n
  | none => .vdouble "NaN"

/-- Platform `parseFloat(text)`, modelled at the same level: a decimal
integer rendering parses to that number, any other rendering is carried as
a symbolic double.  Only determinism of decoding matters to the claims
below. -/
def jsParseFloat (s : String) : NValue :=
  match s.toInt? with
  | some n => .vint n
  | none => .vdouble s

/-- Platform `Array.prototype.sort()` on the key array of a wire map:
default JavaScript sort is lexicographic string comparison. -/
def sortStrings (keys : List String) : List String :=
  keys.insertionSort (· ≤ ·)

/-- serializer.ts `decodePath` / the RESOURCE_PATH_RE replacement: strips
a leading `projects/<p>/databases/<d>` (each one nonempty slash-free
segment) and, when present with a trailing slash, the following
`documents/`. -/
def decodePath (s : String) : String :=
  match s.splitOn "/" with
  | "projects" :: p :: "databases" :: d :: rest =>
    if p = "" ∨ d = "" then s
    else
      match rest with
      | "documents" :: r1 :: rs => String.intercalate "/" (r1 :: rs)
      | [] => ""
      | _ => "/" ++ String.intercalate "/" rest
  | _ => s

mutual

/-- Size measure for wire values, justifying the recursion of the decoder
(which iterates sorted keys, looking entries up in the original map). -/
def szW : WireValue → Nat
  | .arrayValue vs => szWEs vs + 1
  | .mapValue fs => szWFs fs + 2
  | _ => 1

/-- Size of a wire map entry list, for the termination measure. -/
def szWFs : List (String × WireValue) → Nat
  | [] => 0
  | (_, w) :: rest => szW w + szWFs rest + 1

/-- Size of a wire array element list, for the termination measure. -/
def szWEs : List WireValue → Nat
  | [] => 0
  | w :: rest => szW w + szWEs rest + 1

end

/-- A wire value looked up in a wire map is smaller than the map. -/
theorem szW_jsGet {fs : List (String × WireValue)} {k : String} {w : WireValue}
    (h : jsGet fs k = some w) : szW w < szWFs fs := by
  induction fs with
  | nil => simp [jsGet] at h
  | cons p rest ih =>
    obtain ⟨k1, w1⟩ := p
    rw [jsGet] at h
    by_cases hk : k1 = k
    · simp [hk] at h
      simp [szWFs, ← h]
      omega
    · simp [hk] at h
      have := ih h
      simp [szWFs]
      omega

mutual

/-- serializer.ts `decodeValue(firestore, valueObj)`: reads the single
populated entry of the wire value (`Object.entries(valueObj).pop()`) and
dispatches on its key.  A `referenceValue` payload is `value.replace(...)`,
a string method, so a non-string payload raises a TypeError. -/
def decodeValue : WireValue → Except JsErr NValue
  | .nullValue => .ok .vnull
  | .booleanValue b => .ok (.vbool b)
  | .integerValue s => .ok (jsParseInt s)
  | .doubleValue s => .ok (jsParseFloat s)
  | .timestampValue s => .ok (.vdate (jsParseDateMs s))
  | .stringValue s => .ok (.vstr s)
  | .bytesValue s => .ok (.vbuf (atob s))
  | .geoPointValue v => .ok v
  | .arrayValue vs => do
    let ds ← decodeListW vs
    .ok (.varr ds)
  | .mapValue fs => do
    let ds ← decodeFields fs
    .ok (.vmap ds)
  | .referenceValue v =>
    match v with
    | .vstr s => .ok (.vref (decodePath s))
    | _ => .error (.typeError "value.replace is not a function")
  termination_by w => (szW w, 0)
  decreasing_by all_goals
    (first
      | (apply Prod.Lex.right; simp [List.length_cons] <;> omega)
      | (apply Prod.Lex.left
         first
           | (simp [szW, szWFs, szWEs] <;> omega)
           | exact szW_jsGet (by assumption)))

/-- Element-wise decoding of a wire array
(`value.values?.map(decodeValue.bind(null, firestore)) || []`). -/
def decodeListW : List WireValue → Except JsErr (List NValue)
  | [] => .ok []
  | w :: rest => do
    let d ← decodeValue w
    let ds ← decodeListW rest
    .ok (d :: ds)
  termination_by vs => (szWEs vs, 0)
  decreasing_by all_goals
    (first
      | (apply Prod.Lex.right; simp [List.length_cons] <;> omega)
      | (apply Prod.Lex.left
         first
           | (simp [szW, szWFs, szWEs] <;> omega)
           | exact szW_jsGet (by assumption)))

/-- serializer.ts `decode(firestore, fields)`: enumerates
`Object.keys(fields).sort()` and decodes every entry in that order into
the result object. -/
def decodeFields (fs : List (String × WireValue)) :
    Except JsErr (List (String × NValue)) :=
  decodeKeys fs (sortStrings (fs.map Prod.fst))
  termination_by (szWFs fs + 1, 0)
  decreasing_by all_goals
    (first
      | (apply Prod.Lex.right; simp [List.length_cons] <;> omega)
      | (apply Prod.Lex.left
         first
           | (simp [szW, szWFs, szWEs] <;> omega)
           | exact szW_jsGet (by assumption)))

/-- The key loop of `decode`: `obj[prop] = decodeValue(firestore,
fields[prop])` for each sorted key.  The `none` case of the lookup cannot
occur, because the keys are drawn from the map itself. -/
def decodeKeys (fs : List (String × WireValue)) :
    List String → Except JsErr (List (String × NValue))
  | [] => .ok []
  | k :: rest =>
    match hw : jsGet fs k with
    | some w => do
      let v ← decodeValue w
      let tail ← decodeKeys fs rest
      .ok ((k, v) :: tail)
    | none => do
      let tail ← decodeKeys fs rest
      .ok ((k, NValue.vundef) :: tail)
  termination_by keys => (szWFs fs, keys.length + 1)
  decreasing_by all_goals
    (first
      | (apply Prod.Lex.right; simp [List.length_cons] <;> omega)
      | (apply Prod.Lex.left
         first
           | (simp [szW, szWFs, szWEs] <;> omega)
           | exact szW_jsGet (by assumption)))

end

/-- Modelled from the spec: a `DocumentReference` exposes the absolute
qualified resource path of its target document. -/
structure DocumentReference where
  qualifiedPath : String
deriving Repr

/-- Wire `api.Precondition`; `exists_` models the wire field `exists`. -/
structure Precondition where
  exists_ : Option Bool := none
  updateTime : Option String := none
deriving Repr, DecidableEq

/-- write-batch.ts `UpdateType`. -/
inductive UpdateType where
  | create
  | set
  | update
deriving Repr, DecidableEq

/-- Wire `api.Write`: one union operation (`update`, `delete` or
`transform`) plus the optional mask, transform list and precondition.  A
`Document` payload is its name and fields; a `DocumentTransform` payload
is the document name and its field transforms. -/
structure Write where
  update : Option (String × List (String × WireValue)) := none
  updateMask : Option (List String) := none
  updateTransforms : Option (List FieldTransform) := none
  currentDocument : Option Precondition := none
  delete : Option String := none
  transform : Option (String × List FieldTransform) := none
deriving Repr

/-- write-batch.ts `WriteBatch` state: the accumulated `_writes` array and
whether `commit()` has frozen it with `Object.freeze`. -/
structure WriteBatch where
  writes : List Write
  frozen : Bool
deriving Repr

/-- A batch as freshly constructed (`new WriteBatch(firestore)`). -/
def freshBatch : WriteBatch := ⟨[], false⟩

/-- `this._writes.push(write)`: the sources are ES modules, hence strict
mode, so a push onto the frozen array raises a TypeError instead of
silently not mutating. -/
def batchPush (b : WriteBatch) (w : Write) : Except JsErr WriteBatch :=
  if b.frozen then
    .error (.typeError "Cannot add property 0, object is not extensible")
  else .ok { b with writes := b.writes ++ [w] }

/-- write-batch.ts `WriteBatch.delete(ref, precondition?)`. -/
def batchDelete (b : WriteBatch) (ref : DocumentReference)
    (precondition : Option Precondition) : Except JsErr WriteBatch :=
  batchPush b { delete := some ref.qualifiedPath, currentDocument := precondition }

/-- write-batch.ts `WriteBatch.commit()` up to its suspension point: the
write array is frozen before the single `:batchWrite` network request; the
request and the mapping of its `writeResults` belong to the out-of-scope
transport collaborator. -/
def batchCommitFreeze (b : WriteBatch) : WriteBatch :=
  { b with frozen := true }

/-- write-batch.ts `WriteBatch._update(ref, data, type)`: plans one write
from a fresh collector.  For an update (or merge set) with an empty mask,
a non-empty transform list yields a transform-only write and an empty one
is a silent no-op; every other case pushes a literal write carrying the
encoded fields, the mask only for updates, the transform list only when
non-empty, and for a create the precondition `exists: true`. -/
def batchUpdate (variant : Variant) (b : WriteBatch) (ref : DocumentReference)
    (data : List (String × NValue)) (type : UpdateType) :
    Except JsErr WriteBatch := do
  let (fields, col?) ← encode variant data (some freshCollector)
  let col := col?.getD freshCollector
  if col.mask.length = 0 ∧ type = .update then
    if col.transforms.length ≠ 0 then
      batchPush b { transform := some (ref.qualifiedPath, col.transforms) }
    else
      .ok b
  else
    batchPush b
      { update := some (ref.qualifiedPath, fields)
        updateMask := if type = .update then some col.mask else none
        updateTransforms := if col.transforms.length ≠ 0 then some col.transforms else none
        currentDocument := if type = .create then some { exists_ := some true } else none }

/-- write-batch.ts `WriteBatch.create(ref, data)`. -/
def batchCreate (variant : Variant) (b : WriteBatch) (ref : DocumentReference)
    (data : List (String × NValue)) : Except JsErr WriteBatch :=
  batchUpdate variant b ref data .create

/-- write-batch.ts `WriteBatch.set(ref, data, options?)`: merge sets plan
like updates, plain sets as full literal replaces. -/
def batchSet (variant : Variant) (b : WriteBatch) (ref : DocumentReference)
    (data : List (String × NValue)) (merge : Bool) : Except JsErr WriteBatch :=
  batchUpdate variant b ref data (if merge then .update else .set)

/-- write-batch.ts `WriteBatch.update(ref, data)`. -/
def batchUpdateOp (variant : Variant) (b : WriteBatch) (ref : DocumentReference)
    (data : List (String × NValue)) : Except JsErr WriteBatch :=
  batchUpdate variant b ref data .update

mutual

/-- The supported native dispatch set of the codec (no sentinels, no
`undefined`, no functions or symbols), with the one refinement the bytes
pipeline forces: a binary buffer counts as supported when `btoa` accepts
the UTF-8 decoding of its bytes (every decoded unit at most 0xFF), since
the code pipes buffers through text before base64. -/
def supported : NValue → Bool
  | .vnull | .vbool _ | .vint _ | .vnegZero | .vdouble _ => true
  | .vdate _ | .vref _ | .vstr _ => true
  | .vbuf bytes => (btoa (utf8Decode bytes)).isSome
  | .vmap fields => supportedFs fields
  | .varr elems => supportedEs elems
  | .vsentinel _ _ | .vundef | .vfun | .vsym => false
  termination_by v => szV v
  decreasing_by all_goals (simp [szV, szFs, szEs] <;> omega)

/-- All entry values of an object are supported. -/
def supportedFs : List (String × NValue) → Bool
  | [] => true
  | (_, v) :: rest => supported v && supportedFs rest
  termination_by fs => szFs fs
  decreasing_by all_goals (simp [szV, szFs, szEs] <;> omega)

/-- All elements of an array are supported. -/
def supportedEs : List NValue → Bool
  | [] => true
  | v :: rest => supported v && supportedEs rest
  termination_by es => szEs es
  decreasing_by all_goals (simp [szV, szFs, szEs] <;> omega)

end

/-- Entering a field pushes its name on the path stack. -/
theorem ucEnterField_paths (k : String) (c : UpdateCollector) :
    (ucEnterField k c).paths = c.paths ++ [k] := rfl

/-- Entering a field never touches mask or transforms. -/
theorem ucEnterField_mask (k : String) (c : UpdateCollector) :
    (ucEnterField k c).mask = c.mask ∧ (ucEnterField k c).transforms = c.transforms :=
  ⟨rfl, rfl⟩

/-- Leaving a field pops the path stack, in both collector revisions. -/
theorem ucLeaveField_paths (variant : Variant) (addMask : Bool) (c : UpdateCollector) :
    (ucLeaveField variant addMask c).paths = c.paths.dropLast := rfl

/-- Leaving a field either keeps the mask or appends exactly the dot-join
of the path stack as it stands at that moment. -/
theorem ucLeaveField_mask (variant : Variant) (addMask : Bool) (c : UpdateCollector) :
    (ucLeaveField variant addMask c).mask = c.mask ∨
    (ucLeaveField variant addMask c).mask = c.mask ++ [joinDot c.paths] := by
  simp only [ucLeaveField]
  split
  · right; rfl
  · left; rfl

/-- A successful `removeField` leaves the path stack alone. -/
theorem ucRemoveField_paths {variant : Variant} {c c' : UpdateCollector}
    (h : ucRemoveField variant c = .ok c') : c'.paths = c.paths := by
  cases variant <;> simp [ucRemoveField] at h
  subst h
  rfl

/-- A successful `transform` bookkeeping call appends exactly one entry to
the transform list, recorded at the dot-join of the path stack as it
stands at that moment, and leaves the path stack (and the mask) alone. -/
theorem ucTransform_spec {variant : Variant} {t : String} {v : NValue}
    {c c' : UpdateCollector} (h : ucTransform variant t v c = .ok c') :
    c'.paths = c.paths ∧ c'.mask = c.mask ∧
    ∃ ft, c'.transforms = c.transforms ++ [ft] ∧ ft.fieldPath = joinDot c.paths := by
  rw [ucTransform.eq_def] at h
  cases hf : fieldValueEncode variant t v (joinDot c.paths) with
  | error e => rw [hf] at h; simp [Bind.bind, Except.bind] at h
  | ok ft =>
    rw [hf] at h
    simp [Bind.bind, Except.bind] at h
    refine ⟨by simp [← h], by simp [← h], ft, by simp [← h], ?_⟩
    rw [fieldValueEncode.eq_def] at hf
    split at hf
    · simp at hf; simp [← hf]
    · cases he : encodeValue variant v none with
      | error e => rw [he] at hf; simp [Bind.bind, Except.bind] at hf
      | ok p => rw [he] at hf; simp [Bind.bind, Except.bind] at hf; simp [← hf]

/-- Bind over `Except` succeeds exactly when both stages succeed. -/
theorem bind_eq_ok {α β : Type} {x : Except JsErr α} {f : α → Except JsErr β}
    {r : β} : (x >>= f) = .ok r ↔ ∃ a, x = .ok a ∧ f a = .ok r := by
  cases x <;> simp [Bind.bind, Except.bind]

/-- Encoding the empty object emits no fields and leaves the collector. -/
theorem encode_nil (variant : Variant) (col : Option UpdateCollector) :
    encode variant [] col = .ok ([], col) := by
  simp [encode.eq_def]

set_option maxHeartbeats 1000000 in
/-- Auxiliary induction (on the encoder size measure): an encoding call
that returns normally leaves the collector path stack exactly as it found
it, across all four mutually recursive entry points. -/
theorem encodePathsAux (n : Nat) :
    (∀ (variant : Variant) (v : NValue) col w oc, szV v ≤ n →
       encodeValue variant v col = .ok (w, oc) →
       oc.map UpdateCollector.paths = col.map UpdateCollector.paths) ∧
    (∀ (variant : Variant) (fs : List (String × NValue)) col ws oc, szFs fs ≤ n →
       encode variant fs col = .ok (ws, oc) →
       oc.map UpdateCollector.paths = col.map UpdateCollector.paths) ∧
    (∀ (variant : Variant) (es : List NValue) col ws oc, szEs es ≤ n →
       encodeList variant es col = .ok (ws, oc) →
       oc.map UpdateCollector.paths = col.map UpdateCollector.paths) ∧
    (∀ (variant : Variant) (fs : List (String × NValue)) col w oc, szFs fs + 1 ≤ n →
       encodeObject variant fs col = .ok (w, oc) →
       oc.map UpdateCollector.paths = col.map UpdateCollector.paths) := by
  induction n using Nat.strong_induction_on with
  | _ n IH =>
    refine ⟨?_, ?_, ?_, ?_⟩
    · intro variant v col w oc hsz h
      cases v with
      | vsentinel t v =>
        simp only [encodeValue.eq_def] at h
        simp only [szV] at hsz
        have IH2 := (IH (szV v + 3) (by omega)).2.1 variant
          [("transform", NValue.vstr t), ("value", v)]
        cases col with
        | none =>
          simp only [Bind.bind, Except.bind] at h
          cases henc : encode variant [("transform", NValue.vstr t), ("value", v)] none with
          | error e => simp [henc] at h
          | ok p =>
            simp only [henc] at h
            simp at h
            rw [← h.2]
            exact IH2 none p.1 p.2 (by simp [szFs, szV]; omega) henc
        | some c =>
          cases htr : ucTransform variant t v c with
          | error e => simp [htr, Bind.bind, Except.bind] at h
          | ok c1 =>
            simp only [htr, Bind.bind, Except.bind] at h
            cases hrm : ucRemoveField variant c1 with
            | error e => simp [hrm, Bind.bind, Except.bind] at h
            | ok c2 =>
              simp only [hrm, Bind.bind, Except.bind] at h
              cases henc : encode variant [("transform", NValue.vstr t), ("value", v)] (some c2) with
              | error e => simp [henc] at h
              | ok p =>
                simp only [henc] at h
                simp at h
                rw [← h.2]
                have hp := IH2 (some c2) p.1 p.2 (by simp [szFs, szV]; omega) henc
                rw [hp]
                simp [(ucTransform_spec htr).1, ucRemoveField_paths hrm]
      | vmap fields =>
        simp only [encodeValue.eq_def] at h
        simp only [szV] at hsz
        cases hq : jsGet fields "qualifiedPath" with
        | some q =>
          rw [hq] at h
          by_cases ht : truthy q = true
          · simp [ht] at h
            rw [h.2]
          · simp [ht] at h
            exact (IH (szFs fields + 1) (by omega)).2.2.2 variant fields col w oc (le_refl _) h
        | none =>
          rw [hq] at h
          simp at h
          exact (IH (szFs fields + 1) (by omega)).2.2.2 variant fields col w oc (le_refl _) h
      | varr elems =>
        simp only [encodeValue.eq_def] at h
        simp only [szV] at hsz
        cases he : encodeList variant elems col with
        | error e => simp [he, Bind.bind, Except.bind] at h
        | ok p =>
          simp only [he, Bind.bind, Except.bind] at h
          simp at h
          rw [← h.2]
          exact (IH (szEs elems) (by omega)).2.2.1 variant elems col p.1 p.2 (le_refl _) he
      | vbuf bytes =>
        simp only [encodeValue.eq_def] at h
        cases hb : btoa (utf8Decode bytes) with
        | none => rw [hb] at h; simp at h
        | some s => rw [hb] at h; simp at h; rw [h.2]
      | _ =>
        simp only [encodeValue.eq_def] at h
        simp at h <;> rw [h.2]
    · intro variant fs col ws oc hsz h
      cases fs with
      | nil =>
        rw [encode_nil] at h
        simp at h
        rw [h.2]
      | cons kv rest =>
        obtain ⟨k, v⟩ := kv
        rw [encode.eq_def] at h
        dsimp only at h
        simp only [szFs] at hsz
        have hchain : ∀ (b : Bool) (oc1 : Option UpdateCollector),
            oc1.map UpdateCollector.paths =
              (col.map (ucEnterField k)).map UpdateCollector.paths →
            ((oc1.map (ucLeaveField variant b)).map UpdateCollector.paths) =
              col.map UpdateCollector.paths := by
          intro b oc1 h1
          cases col with
          | none => simp at h1; simp [h1]
          | some c =>
            cases oc1 with
            | none => simp at h1
            | some c1 =>
              simp [ucEnterField_paths] at h1
              simp [ucLeaveField_paths, h1]
        by_cases hu : isUndef v = true
        · rw [if_pos hu] at h
          simp only [Bind.bind, Except.bind] at h
          split at h
          · exact Except.noConfusion h
          · rename_i p hrest
            simp at h
            subst h
            rw [(IH (szFs rest) (by omega)).2.1 variant rest _ _ _ (le_refl _) hrest]
            cases col with
            | none => rfl
            | some c => simp [ucLeaveField_paths, ucEnterField_paths, Function.comp]
        · rw [if_neg hu] at h
          simp only [Bind.bind, Except.bind] at h
          cases he : encodeValue variant v (col.map (ucEnterField k)) with
          | error e => simp [he] at h
          | ok p1 =>
            simp only [he] at h
            cases hrest : encode variant rest
                (p1.2.map (ucLeaveField variant (!isArrayOrMap p1.1))) with
            | error e => simp [hrest] at h
            | ok p2 =>
              simp only [hrest] at h
              simp at h
              rw [← h.2]
              rw [(IH (szFs rest) (by omega)).2.1 variant rest _ p2.1 p2.2 (le_refl _) hrest]
              exact hchain _ _
                ((IH (szV v) (by omega)).1 variant v _ p1.1 p1.2 (le_refl _) he)
    · intro variant es col ws oc hsz h
      cases es with
      | nil =>
        simp only [encodeList.eq_def] at h
        simp at h
        rw [h.2]
      | cons v rest =>
        rw [encodeList.eq_def] at h
        dsimp only at h
        simp only [szEs] at hsz
        cases he : encodeValue variant v col with
        | error e => simp [he, Bind.bind, Except.bind] at h
        | ok p1 =>
          simp only [he, Bind.bind, Except.bind] at h
          cases hrest : encodeList variant rest p1.2 with
          | error e => simp [hrest] at h
          | ok p2 =>
            simp only [hrest] at h
            simp at h
            rw [← h.2]
            rw [(IH (szEs rest) (by omega)).2.2.1 variant rest _ p2.1 p2.2 (le_refl _) hrest]
            exact (IH (szV v) (by omega)).1 variant v col p1.1 p1.2 (le_refl _) he
    · intro variant fs col w oc hsz h
      simp only [encodeObject.eq_def] at h
      cases hb : (jsGet fs "buffer").bind bufBytes with
      | some bytes =>
        rw [hb] at h
        dsimp only at h
        cases hbt : btoa (utf8Decode bytes) with
        | none => rw [hbt] at h; simp at h
        | some s => rw [hbt] at h; simp at h; rw [h.2]
      | none =>
        rw [hb] at h
        dsimp only at h
        split at h
        · simp at h; rw [h.2]
        · cases he : encode variant fs col with
          | error e => simp [he, Bind.bind, Except.bind] at h
          | ok p =>
            simp only [he, Bind.bind, Except.bind] at h
            simp at h
            rw [← h.2]
            exact (IH (szFs fs) (by omega)).2.1 variant fs col p.1 p.2 (le_refl _) he

/-- A value looked up in an object whose entries are all supported is
itself supported. -/
theorem supportedFs_jsGet {fs : List (String × NValue)} {k : String} {v : NValue}
    (h : jsGet fs k = some v) (hs : supportedFs fs = true) : supported v = true := by
  induction fs with
  | nil => simp [jsGet] at h
  | cons p rest ih =>
    obtain ⟨k1, v1⟩ := p
    rw [jsGet] at h
    rw [supportedFs] at hs
    simp at hs
    by_cases hk : k1 = k
    · simp [hk] at h
      rw [← h]
      exact hs.1
    · simp [hk] at h
      exact ih h hs.2

/-- A supported value is never `undefined`. -/
theorem supported_not_undef {v : NValue} (h : supported v = true) :
    isUndef v = false := by
  cases v <;> first
    | rfl
    | (rw [supported] at h; exact absurd h (by simp))

set_option maxHeartbeats 1000000 in
/-- Auxiliary induction: on every supported value the collector-free
encoder returns normally (no exception), across the mutually recursive
entry points. -/
theorem encodeOkAux (n : Nat) :
    (∀ (variant : Variant) (v : NValue), szV v ≤ n → supported v = true →
       ∃ w, encodeValue variant v none = .ok (w, none)) ∧
    (∀ (variant : Variant) (fs : List (String × NValue)), szFs fs ≤ n →
       supportedFs fs = true →
       ∃ ws, encode variant fs none = .ok (ws, none)) ∧
    (∀ (variant : Variant) (es : List NValue), szEs es ≤ n →
       supportedEs es = true →
       ∃ ws, encodeList variant es none = .ok (ws, none)) ∧
    (∀ (variant : Variant) (fs : List (String × NValue)), szFs fs + 1 ≤ n →
       supportedFs fs = true →
       ∃ w, encodeObject variant fs none = .ok (w, none)) := by
  induction n using Nat.strong_induction_on with
  | _ n IH =>
    refine ⟨?_, ?_, ?_, ?_⟩
    · intro variant v hsz hs
      cases v with
      | vsentinel t v => rw [supported] at hs; exact absurd hs (by simp)
      | vundef => rw [supported] at hs; exact absurd hs (by simp)
      | vfun => rw [supported] at hs; exact absurd hs (by simp)
      | vsym => rw [supported] at hs; exact absurd hs (by simp)
      | vbuf bytes =>
        rw [supported] at hs
        obtain ⟨s, hsome⟩ := Option.isSome_iff_exists.mp hs
        simp only [encodeValue.eq_def, hsome]
        exact ⟨_, rfl⟩
      | vmap fields =>
        rw [supported] at hs
        simp only [szV] at hsz
        simp only [encodeValue.eq_def]
        cases hq : jsGet fields "qualifiedPath" with
        | some q =>
          by_cases ht : truthy q = true
          · simp [ht]
          · simp [ht]
            exact (IH (szFs fields + 1) (by omega)).2.2.2 variant fields (le_refl _) hs
        | none =>
          exact (IH (szFs fields + 1) (by omega)).2.2.2 variant fields (le_refl _) hs
      | varr elems =>
        rw [supported] at hs
        simp only [szV] at hsz
        obtain ⟨ws, hws⟩ := (IH (szEs elems) (by omega)).2.2.1 variant elems (le_refl _) hs
        simp only [encodeValue.eq_def, hws, Bind.bind, Except.bind]
        exact ⟨_, rfl⟩
      | _ =>
        simp only [encodeValue.eq_def]
        exact ⟨_, rfl⟩
    · intro variant fs hsz hs
      cases fs with
      | nil => exact ⟨[], encode_nil variant none⟩
      | cons kv rest =>
        obtain ⟨k, v⟩ := kv
        rw [supportedFs] at hs
        simp at hs
        simp only [szFs] at hsz
        obtain ⟨w1, hw1⟩ := (IH (szV v) (by omega)).1 variant v (le_refl _) hs.1
        obtain ⟨ws2, hws2⟩ := (IH (szFs rest) (by omega)).2.1 variant rest (le_refl _) hs.2
        rw [encode.eq_def]
        dsimp only
        rw [if_neg (by simp [supported_not_undef hs.1])]
        simp [hw1, hws2, Bind.bind, Except.bind]
    · intro variant es hsz hs
      cases es with
      | nil => simp only [encodeList.eq_def]; exact ⟨[], rfl⟩
      | cons v rest =>
        rw [supportedEs] at hs
        simp at hs
        simp only [szEs] at hsz
        obtain ⟨w1, hw1⟩ := (IH (szV v) (by omega)).1 variant v (le_refl _) hs.1
        obtain ⟨ws2, hws2⟩ := (IH (szEs rest) (by omega)).2.2.1 variant rest (le_refl _) hs.2
        rw [encodeList.eq_def]
        dsimp only
        simp only [hw1, hws2, Bind.bind, Except.bind]
        exact ⟨_, rfl⟩
    · intro variant fs hsz hs
      simp only [encodeObject.eq_def]
      cases hb : (jsGet fs "buffer").bind bufBytes with
      | some bytes =>
        dsimp only
        obtain ⟨v0, hv0, hbb⟩ := Option.bind_eq_some.mp hb
        have hsv : supported v0 = true := supportedFs_jsGet hv0 hs
        cases v0 with
        | vbuf bs =>
          simp only [bufBytes] at hbb
          simp at hbb
          subst hbb
          rw [supported] at hsv
          obtain ⟨s, hsome⟩ := Option.isSome_iff_exists.mp hsv
          simp only [hsome]
          exact ⟨_, rfl⟩
        | _ => simp [bufBytes] at hbb
      | none =>
        dsimp only
        split
        · exact ⟨_, rfl⟩
        · obtain ⟨ws, hws⟩ := (IH (szFs fs) (by omega)).2.1 variant fs (le_refl _) hs
          simp only [hws, Bind.bind, Except.bind]
          exact ⟨_, rfl⟩

/-- Property lookup agrees across permutations of an object with unique
keys (JavaScript objects cannot carry duplicate keys). -/
theorem jsGet_perm {α : Type} {l1 l2 : List (String × α)} (h : l1.Perm l2) :
    (l1.map Prod.fst).Nodup → ∀ k, jsGet l1 k = jsGet l2 k := by
  induction h with
  | nil => intro _ k; rfl
  | cons x h ih =>
    intro nd k
    obtain ⟨kx, vx⟩ := x
    rw [jsGet, jsGet]
    by_cases hk : kx = k
    · simp [hk]
    · simp only [hk, if_false, if_neg hk]
      simp at nd
      exact ih nd.2 k
  | swap x y l =>
    intro nd k
    obtain ⟨kx, vx⟩ := x
    obtain ⟨ky, vy⟩ := y
    have hxy : ky ≠ kx := by
      simp at nd
      tauto
    by_cases h1 : ky = k <;> by_cases h2 : kx = k
    · exact absurd (h1.trans h2.symm) hxy
    · simp [jsGet, h1, h2]
    · simp [jsGet, h1, h2]
    · simp [jsGet, h1, h2]
  | trans h1 h2 ih1 ih2 =>
    intro nd k
    have nd2 := ((h1.map Prod.fst).nodup_iff).mp nd
    exact (ih1 nd k).trans (ih2 nd2 k)

/-- The sorted key enumeration is the same for any two key lists that are
permutations of one another: sorting is a deterministic total order. -/
theorem sortStrings_eq {l1 l2 : List String} (h : l1.Perm l2) :
    sortStrings l1 = sortStrings l2 := by
  have s1 : List.Sorted (fun a b : String => a ≤ b) (sortStrings l1) :=
    List.sorted_insertionSort _ l1
  have s2 : List.Sorted (fun a b : String => a ≤ b) (sortStrings l2) :=
    List.sorted_insertionSort _ l2
  have hp : (sortStrings l1).Perm (sortStrings l2) :=
    (List.perm_insertionSort _ l1).trans
      (h.trans (List.perm_insertionSort _ l2).symm)
  exact List.eq_of_perm_of_sorted hp s1 s2

/-- Unfolding of the decode key loop at a key present in the map. -/
theorem decodeKeys_cons_some {fs : List (String × WireValue)} {k : String}
    {w : WireValue} (rest : List String) (h : jsGet fs k = some w) :
    decodeKeys fs (k :: rest) = (do
      let v ← decodeValue w
      let tail ← decodeKeys fs rest
      .ok ((k, v) :: tail)) := by
  conv_lhs => rw [decodeKeys.eq_def]
  dsimp only
  split
  · rename_i w2 hw2
    rw [h] at hw2
    simp at hw2
    rw [hw2]
  · rename_i hw2
    rw [h] at hw2
    exact Option.noConfusion hw2

/-- Unfolding of the decode key loop at a key absent from the map. -/
theorem decodeKeys_cons_none {fs : List (String × WireValue)} {k : String}
    (rest : List String) (h : jsGet fs k = none) :
    decodeKeys fs (k :: rest) = (do
      let tail ← decodeKeys fs rest
      .ok ((k, NValue.vundef) :: tail)) := by
  conv_lhs => rw [decodeKeys.eq_def]
  dsimp only
  split
  · rename_i w2 hw2
    rw [h] at hw2
    exact Option.noConfusion hw2
  · rfl

/-- The decode key loop only consults the map through property lookup, so
two maps with identical lookups decode identically over any key list. -/
theorem decodeKeys_congr {l1 l2 : List (String × WireValue)}
    (hg : ∀ k, jsGet l1 k = jsGet l2 k) :
    ∀ keys, decodeKeys l1 keys = decodeKeys l2 keys := by
  intro keys
  induction keys with
  | nil =>
    conv_lhs => rw [decodeKeys.eq_def]
    conv_rhs => rw [decodeKeys.eq_def]
  | cons k rest ih =>
    cases hq : jsGet l1 k with
    | some w =>
      rw [decodeKeys_cons_some rest hq, decodeKeys_cons_some rest ((hg k) ▸ hq), ih]
    | none =>
      rw [decodeKeys_cons_none rest hq, decodeKeys_cons_none rest ((hg k) ▸ hq), ih]

/-- Claim C1, evaluated on the code at the failing input: planning
`update({a: FieldValue.increment(5)})` appends exactly one transform
`fieldPath a / increment integerValue 5`, but — because the `FieldValue`
branch of `encodeValue` has no return statement — the encoded fields map
DOES contain an entry at key `a` (the sentinel re-encoded as a literal map
over its own fields), the mask is `[a.transform, a.value]` rather than
empty, and the planned write is a literal update carrying that mask, not a
transform-only write.  With the src collector revision (which has no
`removeField`) the same call instead raises a TypeError. -/
theorem claim1_sentinel_field_leaks_into_literal_write :
    encode .retract [("a", .vsentinel "increment" (.vint 5))] (some freshCollector) =
      .ok ([("a", .mapValue [("transform", .stringValue "increment"),
                             ("value", .integerValue "5")])],
           some { paths := [], mask := ["a.transform", "a.value"],
                  transforms := [{ fieldPath := "a", transform := "increment",
                                   value := .wire (.integerValue "5") }] })
    ∧ batchUpdateOp .retract freshBatch ⟨"docs/x"⟩
        [("a", .vsentinel "increment" (.vint 5))] =
      .ok { writes := [{ update := some ("docs/x",
                           [("a", .mapValue [("transform", .stringValue "increment"),
                                             ("value", .integerValue "5")])]),
                         updateMask := some ["a.transform", "a.value"],
                         updateTransforms := some [{ fieldPath := "a",
                                                     transform := "increment",
                                                     value := .wire (.integerValue "5") }],
                         currentDocument := none, delete := none, transform := none }],
            frozen := false }
    ∧ encode .skip [("a", .vsentinel "increment" (.vint 5))] (some freshCollector) =
      .error (.typeError "collector.removeField is not a function") := by
  refine ⟨?_, ?_, ?_⟩
  · simp only [encode.eq_def, encodeValue.eq_def, ucTransform.eq_def,
      fieldValueEncode.eq_def]
    rfl
  · simp only [batchUpdateOp, batchUpdate, encode.eq_def, encodeValue.eq_def,
      ucTransform.eq_def, fieldValueEncode.eq_def]
    rfl
  · simp only [encode.eq_def, encodeValue.eq_def, ucTransform.eq_def,
      fieldValueEncode.eq_def]
    rfl

/-- Claim C2, evaluated on the code at the failing input
`{a: 1, b: FieldValue.increment(2)}`: in the retract collector revision the
`removeField` call fired by the sentinel pops the unrelated mask entry `a`,
and the sentinel fall-through masks the sentinel object own fields, so the
final mask is `[b.transform, b.value]` and the transform list `[b]` — the
mask/transform union is neither disjoint from nor equal to the leaf set
`[a, b]` the claim requires (`a` is covered by neither side).  In the skip
revision the same input raises a TypeError instead. -/
theorem claim2_mask_transform_partition_fails :
    encode .retract [("a", .vint 1), ("b", .vsentinel "increment" (.vint 2))]
        (some freshCollector) =
      .ok ([("a", .integerValue "1"),
            ("b", .mapValue [("transform", .stringValue "increment"),
                             ("value", .integerValue "2")])],
           some { paths := [], mask := ["b.transform", "b.value"],
                  transforms := [{ fieldPath := "b", transform := "increment",
                                   value := .wire (.integerValue "2") }] })
    ∧ encode .skip [("a", .vint 1), ("b", .vsentinel "increment" (.vint 2))]
        (some freshCollector) =
      .error (.typeError "collector.removeField is not a function") := by
  refine ⟨?_, ?_⟩
  · simp only [encode.eq_def, encodeValue.eq_def, ucTransform.eq_def,
      fieldValueEncode.eq_def]
    rfl
  · simp only [encode.eq_def, encodeValue.eq_def, ucTransform.eq_def,
      fieldValueEncode.eq_def]
    rfl

/-- Claim C3, evaluated on the code at the failing input: the two-byte
buffer 0xC3 0xA9 (the UTF-8 spelling of one accented letter) does not
round-trip — `encodeValue` pipes the raw bytes through the UTF-8 text
decoder before `btoa`, so decoding the encoded value returns the ONE-byte
buffer 0xE9, not the original bytes. -/
theorem claim3_roundtrip_fails_on_bytes :
    ((encodeValue .retract (.vbuf [0xC3, 0xA9]) none) >>=
        fun p => decodeValue p.1) = .ok (.vbuf [0xE9])
    ∧ NValue.vbuf [0xE9] ≠ NValue.vbuf [0xC3, 0xA9] := by
  have hu : utf8Decode [0xC3, 0xA9] = [0xE9] := by simp [utf8Decode, isCont]
  refine ⟨?_, ?_⟩
  · simp only [encodeValue.eq_def, decodeValue.eq_def, hu]
    rfl
  · simp

/-- Claim C4: the code base64-encodes the UTF-8 TEXT decoding of the
buffer, not its raw bytes — on the buffer 0xC3 0xA9 it emits the base64 of
the single code point 0xE9 (the string 6Q==), while the base64 of the raw
byte sequence (what the claim requires) is w6k=. -/
theorem claim4_bytes_encoded_through_utf8 :
    encodeValue .retract (.vbuf [0xC3, 0xA9]) none = .ok (.bytesValue "6Q==", none)
    ∧ base64Core [0xC3, 0xA9] = "w6k="
    ∧ ("6Q==" : String) ≠ "w6k=" := by
  have hu : utf8Decode [0xC3, 0xA9] = [0xE9] := by simp [utf8Decode, isCont]
  refine ⟨?_, by decide, by decide⟩
  simp only [encodeValue.eq_def, hu]
  rfl

/-- Claim C5, evaluated on the code: a create write carries the
precondition `exists: true` (the document must ALREADY exist), the
opposite of the create-if-absent polarity the claim (and the spec intent)
require. -/
theorem claim5_create_precondition_polarity_inverted :
    batchCreate .retract freshBatch ⟨"docs/x"⟩ [("a", .vint 1)] =
      .ok { writes := [{ update := some ("docs/x", [("a", .integerValue "1")]),
                         updateMask := none, updateTransforms := none,
                         currentDocument := some { exists_ := some true, updateTime := none },
                         delete := none, transform := none }],
            frozen := false }
    ∧ (some { exists_ := some true, updateTime := none } : Option Precondition) ≠
        some { exists_ := some false, updateTime := none } := by
  refine ⟨?_, by decide⟩
  simp only [batchCreate, batchUpdate, encode.eq_def, encodeValue.eq_def]
  rfl

/-- Claim C6: planning an update (or merge set) on an unfrozen batch
appends exactly one literal write (fields + mask + any transforms) when
the collector mask is non-empty, exactly one transform-only write (no
literal-fields update) when the mask is empty but transforms exist, and
appends nothing — without error — when both are empty. -/
theorem claim6_update_trichotomy
    (variant : Variant) (b : WriteBatch) (ref : DocumentReference)
    (data : List (String × NValue)) (fields : List (String × WireValue))
    (col : UpdateCollector)
    (hfrozen : b.frozen = false)
    (henc : encode variant data (some freshCollector) = .ok (fields, some col)) :
    batchUpdate variant b ref data .update =
      if col.mask.length = 0 then
        (if col.transforms.length ≠ 0 then
          .ok { b with writes := b.writes ++
            [{ update := none, updateMask := none, updateTransforms := none,
               currentDocument := none, delete := none,
               transform := some (ref.qualifiedPath, col.transforms) }] }
         else .ok b)
      else
        .ok { b with writes := b.writes ++
          [{ update := some (ref.qualifiedPath, fields),
             updateMask := some col.mask,
             updateTransforms :=
               if col.transforms.length ≠ 0 then some col.transforms else none,
             currentDocument := none, delete := none, transform := none }] } := by
  unfold batchUpdate
  rw [henc]
  simp only [Bind.bind, Except.bind]
  by_cases hm : col.mask.length = 0
  · have hm2 : col.mask = [] := List.length_eq_zero.mp hm
    simp only [hm, if_pos, batchPush, hfrozen]
    by_cases ht : col.transforms.length = 0
    · have ht2 : col.transforms = [] := List.length_eq_zero.mp ht
      simp [ht, ht2, hm2]
    · simp [ht, hm2]
  · have hm2 : ¬col.mask = [] := fun he => hm (by simp [he])
    simp [hm, hm2, batchPush, hfrozen]

/-- Witness for C6 at the concrete input `{a: 1}`: the mask is non-empty,
so exactly one literal write with mask `[a]` and no transforms is
appended. -/
theorem claim6_update_trichotomy_witness :
    batchUpdate .retract freshBatch ⟨"docs/x"⟩ [("a", .vint 1)] .update =
      .ok { writes := [{ update := some ("docs/x", [("a", .integerValue "1")]),
                         updateMask := some ["a"], updateTransforms := none,
                         currentDocument := none, delete := none, transform := none }],
            frozen := false } := by
  have h := claim6_update_trichotomy .retract freshBatch ⟨"docs/x"⟩
    [("a", .vint 1)] [("a", .integerValue "1")]
    { paths := [], mask := ["a"], transforms := [] }
    rfl
    (by simp only [encode.eq_def, encodeValue.eq_def]; rfl)
  simpa using h

/-- Counterexample to claim C7 as stated: `undefined` as an array element
makes `encodeValue` throw a TypeError (reading a property of undefined),
not the UnsupportedType error; and a supported binary buffer whose byte
0x80 UTF-8-decodes to U+FFFD makes `btoa` raise InvalidCharacterError. -/
theorem claim7_counterexample :
    encodeValue .retract (.varr [.vundef]) none =
      .error (.typeError "Cannot read properties of undefined (reading qualifiedPath)")
    ∧ encodeValue .retract (.vbuf [0x80]) none =
      .error (.invalidCharacter "btoa: invalid character") := by
  have hu : utf8Decode [0x80] = [0xFFFD] := by simp [utf8Decode, isCont]
  refine ⟨?_, ?_⟩
  · simp only [encodeValue.eq_def, encodeList.eq_def]
    rfl
  · simp only [encodeValue.eq_def, hu]
    rfl

/-- Claim C7 as amended: values outside the supported dispatch set such as
functions and symbols fail with the UnsupportedType error naming the
actual type; `undefined` (e.g. as an array element) instead fails with a
TypeError from reading a property of undefined; a binary buffer whose
UTF-8 decoding holds a code point above 0xFF makes `btoa` raise
InvalidCharacterError; and on every other supported value the encoder
raises no error. -/
theorem claim7_amended_error_behaviour :
    (∀ (variant : Variant) (v : NValue), supported v = true →
       ∃ w, encodeValue variant v none = .ok (w, none))
    ∧ (∀ variant : Variant,
        encodeValue variant .vfun none = .error (.unsupported "function"))
    ∧ (∀ variant : Variant,
        encodeValue variant .vsym none = .error (.unsupported "symbol"))
    ∧ (∀ variant : Variant, encodeValue variant (.varr [.vundef]) none =
        .error (.typeError "Cannot read properties of undefined (reading qualifiedPath)"))
    ∧ (∀ variant : Variant, encodeValue variant (.vbuf [0x80]) none =
        .error (.invalidCharacter "btoa: invalid character")) := by
  have hu : utf8Decode [0x80] = [0xFFFD] := by simp [utf8Decode, isCont]
  refine ⟨?_, ?_, ?_, ?_, ?_⟩
  · intro variant v hs
    exact (encodeOkAux (szV v)).1 variant v (le_refl _) hs
  · intro variant
    simp only [encodeValue.eq_def]
  · intro variant
    simp only [encodeValue.eq_def]
  · intro variant
    simp only [encodeValue.eq_def, encodeList.eq_def]
    rfl
  · intro variant
    simp only [encodeValue.eq_def, hu]
    rfl

/-- Witness for the amended C7 at concrete inputs: the safe integer 3 is
supported and encodes without error. -/
theorem claim7_amended_error_behaviour_witness :
    ∃ w, encodeValue .retract (.vint 3) none = .ok (w, none) :=
  claim7_amended_error_behaviour.1 .retract (.vint 3) (by simp [supported])

/-- Claim C8: once `commit()` has frozen the write array, every operation
that would append a write — delete, create, set, and update whenever it
has anything to write — fails with the strict-mode TypeError of pushing
onto a frozen array, and the frozen write sequence is never mutated (the
only silent case is an update that plans nothing at all, which never
attempts an append and returns the batch unchanged). -/
theorem claim8_frozen_batch_rejects_appends
    (variant : Variant) (b : WriteBatch) (ref : DocumentReference)
    (data : List (String × NValue)) (pre : Option Precondition)
    (fields : List (String × WireValue)) (col : UpdateCollector)
    (hf : b.frozen = true)
    (henc : encode variant data (some freshCollector) = .ok (fields, some col)) :
    batchDelete b ref pre =
      .error (.typeError "Cannot add property 0, object is not extensible")
    ∧ batchCreate variant b ref data =
      .error (.typeError "Cannot add property 0, object is not extensible")
    ∧ batchSet variant b ref data false =
      .error (.typeError "Cannot add property 0, object is not extensible")
    ∧ (col.mask.length ≠ 0 ∨ col.transforms.length ≠ 0 →
        batchUpdateOp variant b ref data =
          .error (.typeError "Cannot add property 0, object is not extensible"))
    ∧ (col.mask.length = 0 ∧ col.transforms.length = 0 →
        batchUpdateOp variant b ref data = .ok b) := by
  refine ⟨?_, ?_, ?_, ?_, ?_⟩
  · simp [batchDelete, batchPush, hf]
  · unfold batchCreate batchUpdate
    rw [henc]
    simp [Bind.bind, Except.bind, batchPush, hf]
  · unfold batchSet batchUpdate
    rw [henc]
    simp [Bind.bind, Except.bind, batchPush, hf]
  · intro hsome
    unfold batchUpdateOp batchUpdate
    rw [henc]
    simp only [Bind.bind, Except.bind]
    by_cases hm : col.mask.length = 0
    · have ht : col.transforms.length ≠ 0 := by
        rcases hsome with hc | hc
        · exact absurd hm hc
        · exact hc
      simp [hm, ht, batchPush, hf]
    · simp [hm, batchPush, hf]
  · intro ⟨hm, ht⟩
    unfold batchUpdateOp batchUpdate
    rw [henc]
    simp [Bind.bind, Except.bind, hm, ht]

/-- Witness for C8: deleting on a freshly frozen batch raises the
TypeError, with the empty-update silent case checked alongside. -/
theorem claim8_frozen_batch_rejects_appends_witness :
    batchDelete (batchCommitFreeze freshBatch) ⟨"docs/x"⟩ none =
      .error (.typeError "Cannot add property 0, object is not extensible")
    ∧ batchUpdateOp .retract (batchCommitFreeze freshBatch) ⟨"docs/x"⟩ [] =
      .ok (batchCommitFreeze freshBatch) := by
  have h := claim8_frozen_batch_rejects_appends .retract (batchCommitFreeze freshBatch)
    ⟨"docs/x"⟩ [] none [] freshCollector rfl (encode_nil .retract (some freshCollector))
  exact ⟨h.1, h.2.2.2.2 ⟨rfl, rfl⟩⟩

/-- Claim C9: `decode` enumerates the wire map keys in sorted order, so
for any two wire maps carrying the same key-to-value associations (keys
unique, as in any JavaScript object) in different orders it produces
identical native keyed structures. -/
theorem claim9_decode_order_independent
    (l1 l2 : List (String × WireValue))
    (hperm : l1.Perm l2) (hnd : (l1.map Prod.fst).Nodup) :
    decodeFields l1 = decodeFields l2 := by
  rw [decodeFields.eq_def, decodeFields.eq_def]
  rw [sortStrings_eq (hperm.map Prod.fst)]
  exact decodeKeys_congr (jsGet_perm hperm hnd) _

/-- Witness for C9 at a concrete two-entry wire map given in both orders. -/
theorem claim9_decode_order_independent_witness :
    decodeFields [("b", .nullValue), ("a", .booleanValue true)] =
      decodeFields [("a", .booleanValue true), ("b", .nullValue)] :=
  claim9_decode_order_independent _ _ (List.Perm.swap _ _ _) (by simp)

/-- Claim C10: an `encode` call that returns normally restores the
collector path stack exactly (so a top-level call ends with an empty
stack); every transform entry is recorded at the dot-join of the stack at
the moment `UpdateCollector.transform` runs, and `leaveField` either
leaves the mask alone or appends exactly the dot-join of the stack in
effect when it runs. -/
theorem claim10_collector_stack_balanced :
    (∀ (variant : Variant) (m : List (String × NValue)) (col : UpdateCollector)
       (fields : List (String × WireValue)) (oc : Option UpdateCollector),
       encode variant m (some col) = .ok (fields, oc) →
       oc.map UpdateCollector.paths = some col.paths)
    ∧ (∀ (variant : Variant) (t : String) (v : NValue) (c c' : UpdateCollector),
        ucTransform variant t v c = .ok c' →
        c'.paths = c.paths ∧
        ∃ ft, c'.transforms = c.transforms ++ [ft] ∧ ft.fieldPath = joinDot c.paths)
    ∧ (∀ (variant : Variant) (addMask : Bool) (c : UpdateCollector),
        (ucLeaveField variant addMask c).mask = c.mask ∨
        (ucLeaveField variant addMask c).mask = c.mask ++ [joinDot c.paths]) := by
  refine ⟨?_, ?_, ?_⟩
  · intro variant m col fields oc h
    have hp := (encodePathsAux (szFs m)).2.1 variant m (some col) fields oc (le_refl _) h
    simpa using hp
  · intro variant t v c c' h
    obtain ⟨h1, _, h3⟩ := ucTransform_spec h
    exact ⟨h1, h3⟩
  · intro variant addMask c
    exact ucLeaveField_mask variant addMask c

/-- Witness for C10 at the concrete input `{a: 1}` from a fresh collector:
the final path stack is empty. -/
theorem claim10_collector_stack_balanced_witness :
    (some { paths := [], mask := ["a"], transforms := [] } :
        Option UpdateCollector).map UpdateCollector.paths =
      some freshCollector.paths :=
  claim10_collector_stack_balanced.1 .retract [("a", .vint 1)] freshCollector
    [("a", .integerValue "1")] (some { paths := [], mask := ["a"], transforms := [] })
    (by simp only [encode.eq_def, encodeValue.eq_def]; rfl)
